import Mathlib

/-!
Shallow embedding of the `wesee` resume-builder core
(`src/lib/latex-parser.ts`, `src/lib/types.ts`, the pdf-parser /
latex-generator module in `src/unnamed/part_000`, and the chunk
operations of `src/components/ResumeEditor.tsx`), together with proofs
settling the frozen claims about it.

Strings are modelled as `List Char` internally; public functions keep the
source's `String` signatures.  JavaScript regular-expression scans are
translated into explicit leftmost-match boundary scanners with the same
semantics (lazy quantifiers become shortest-split-at-stop-literal,
global scans become repeated leftmost search from the previous match
end).  Character classes follow the ECMAScript definitions restricted as
noted in comments.
-/

namespace Wesee

/-- The ECMAScript whitespace set used by `String.prototype.trim` and the
regex class backslash-s: tab through carriage return, space, NBSP, and the
Unicode space separators. -/
def isJsSpace (c : Char) : Bool :=
  c = ' ' || ('\t' ≤ c && c ≤ '\x0d') || c = '\xa0' || c = '\u1680' ||
  ('\u2000' ≤ c && c ≤ '\u200a') || c = '\u2028' || c = '\u2029' ||
  c = '\u202f' || c = '\u205f' || c = '\u3000' || c = '\ufeff'

/-- ECMAScript line terminators, excluded by the regex `.` metacharacter. -/
def isLineTerm (c : Char) : Bool :=
  c = '\n' || c = '\x0d' || c = '\u2028' || c = '\u2029'

/-- Remove leading ECMAScript whitespace (half of `String.prototype.trim`). -/
def dropLeadingWs (l : List Char) : List Char := l.dropWhile isJsSpace

/-- Embeds `String.prototype.trim`: strip leading and trailing whitespace. -/
def trimList (l : List Char) : List Char :=
  ((l.dropWhile isJsSpace).reverse.dropWhile isJsSpace).reverse

/-- Embeds `text.split("\n")`: split at every newline, keeping empty pieces. -/
def splitOnNl : List Char → List (List Char)
  | [] => [[]]
  | c :: r =>
    if c = '\n' then [] :: splitOnNl r
    else
      match splitOnNl r with
      | [] => [[c]]
      | h :: t => (c :: h) :: t

/-- Concatenate `f` applied to every element (a string built up by `+=` in a
loop over a list). -/
def mapConcat (f : α → List Char) : List α → List Char
  | [] => []
  | x :: r => f x ++ mapConcat f r

/-- chunk `type` values occurring in `src/lib/types.ts`. -/
inductive ChunkType where
  | section
  | subsection
  | item
deriving DecidableEq, Repr

/-- Embeds `ResumeChunk.metadata` from `src/lib/types.ts`: four independently
optional fields. -/
structure Metadata where
  company : Option String
  position : Option String
  dates : Option String
  location : Option String
deriving DecidableEq, Repr

/-- Embeds `Omit ResumeChunk "order" | "isActive"` — the shape produced by both
parsers before the registry assigns order and activity. -/
structure ParsedChunk where
  id : String
  type : ChunkType
  title : String
  content : String
  rawLatex : String
  parentId : Option String
  tags : Option (List String)
  metadata : Option Metadata
deriving DecidableEq, Repr

/-- The full `ResumeChunk` of `src/lib/types.ts`. -/
structure ResumeChunk where
  id : String
  type : ChunkType
  title : String
  content : String
  rawLatex : String
  order : Nat
  isActive : Bool
  parentId : Option String
  tags : Option (List String)
  metadata : Option Metadata
deriving DecidableEq, Repr

/-- Embeds `ResumeData` from `src/lib/types.ts`. -/
structure ResumeData where
  preamble : String
  activeChunks : List ResumeChunk
  standbyChunks : List ResumeChunk
  documentClass : String
  packages : List String
deriving DecidableEq, Repr

/-! ## Heuristic segmenter (`parseTextToChunks` and helpers, src/unnamed/part_000) -/

/-- First replacement pass of `escapeLatex`: backslash to
`\textbackslash` followed by an empty brace group. -/
def escPassBackslash (c : Char) : List Char :=
  if c = '\\' then "\\textbackslash\x7b\x7d".toList else [c]

/-- Second pass: the character class ampersand, percent, dollar, hash,
underscore, open brace, close brace gets a backslash prefix (`\$&`). -/
def escPassClass (c : Char) : List Char :=
  if c = '&' || c = '%' || c = '$' || c = '#' || c = '_' || c = '\x7b' || c = '\x7d'
  then ['\\', c] else [c]

/-- Third pass: tilde to `\textasciitilde` plus empty brace group. -/
def escPassTilde (c : Char) : List Char :=
  if c = '~' then "\\textasciitilde\x7b\x7d".toList else [c]

/-- Fourth pass: caret to `\textasciicircum` plus empty brace group. -/
def escPassCaret (c : Char) : List Char :=
  if c = '^' then "\\textasciicircum\x7b\x7d".toList else [c]

/-- Embeds `escapeLatex` (src/unnamed/part_000 lines 203-209): four sequential
global single-character replacements, in source order. -/
def escapeLatex (l : List Char) : List Char :=
  mapConcat escPassCaret
    (mapConcat escPassTilde
      (mapConcat escPassClass
        (mapConcat escPassBackslash l)))

/-- The bullet glyphs recognized at the start of a trimmed line. -/
def isBulletChar (c : Char) : Bool := c = '\u2022' || c = '-' || c = '*'

/-- Conversion of one (non-empty) line inside `convertToLatex`. -/
def lineToLatex (line : List Char) : List Char :=
  let t := trimList line
  if (match t with | c :: _ => isBulletChar c | [] => false) then
    -- bullet line: strip one leading glyph and following whitespace
    let bulletContent := (t.drop 1).dropWhile isJsSpace
    "  \\item ".toList ++ escapeLatex bulletContent ++ ['\n']
  else if t.length < 100 && (match t with | c :: _ => c.isUpper | [] => false) then
    -- short line starting with an ASCII capital: subsection header
    "\\subsection\x7b".toList ++ escapeLatex t ++ "\x7d\n".toList
  else
    escapeLatex t ++ "\\\\\n".toList

/-- Embeds `convertToLatex` (src/unnamed/part_000 lines 170-198): split on
newlines, drop empty lines, convert each line. -/
def convertToLatex (text : List Char) : List Char :=
  mapConcat lineToLatex ((splitOnNl text).filter (fun l => !l.isEmpty))

/-- Embeds `cleanTitle` (src/unnamed/part_000 lines 157-165): drop leading
non-letters, drop everything but ASCII letters, digits and whitespace, trim,
split on whitespace runs, capitalize each word, rejoin with single spaces. -/
def capitalizeWord : List Char → List Char
  | [] => []
  | c :: r => c.toUpper :: r.map Char.toLower

/-- Accumulator pass for splitting at whitespace runs: collects the current
word (reversed) and flushes it at each whitespace run.  On input with no
leading or trailing whitespace this agrees with JavaScript `split` on the
one-or-more-whitespace pattern (which is how `cleanTitle` calls it: the
string is trimmed first, so no empty pieces can arise). -/
def splitWsAux (w : List Char) : List Char → List (List Char)
  | [] => if w.isEmpty then [] else [w.reverse]
  | c :: r =>
    if isJsSpace c then
      if w.isEmpty then splitWsAux [] r else w.reverse :: splitWsAux [] r
    else splitWsAux (c :: w) r

/-- Split a trimmed string at whitespace runs; an empty input yields one
empty word, as JavaScript `"".split` does. -/
def splitWsWords (l : List Char) : List (List Char) :=
  match l with
  | [] => [[]]
  | _ => splitWsAux [] l

def cleanTitle (title : List Char) : List Char :=
  let s1 := title.dropWhile (fun c => !c.isAlpha)
  let s2 := s1.filter (fun c => c.isAlphanum || isJsSpace c)
  let s3 := trimList s2
  let words := (splitWsWords s3).map capitalizeWord
  (words.intersperse (" ".toList)).flatten

/-- Embeds `createChunk` (src/unnamed/part_000 lines 133-152). -/
def createChunk (title : List Char) (content : List (List Char)) (index : Nat) :
    ParsedChunk :=
  let contentText := (content.intersperse ['\n']).flatten
  let latexContent := convertToLatex contentText
  let rawLatex := "\\section\x7b".toList ++ title ++ "\x7d\n\n".toList ++ latexContent
  { id := "section-" ++ toString index
    type := ChunkType.section
    title := String.mk (cleanTitle title)
    content := String.mk contentText
    rawLatex := String.mk rawLatex
    parentId := none
    tags := some [String.mk ((cleanTitle title).map Char.toLower)]
    metadata := none }

/-- The section-header keyword alternatives of the ten patterns in
`parseTextToChunks`; each pattern is anchored at the line start with the
case-insensitive flag, so a line matches iff one keyword is a
case-insensitive prefix of it. -/
def headerKeywords : List String :=
  ["EXPERIENCE", "WORK EXPERIENCE", "PROFESSIONAL EXPERIENCE", "EMPLOYMENT",
   "EDUCATION", "ACADEMIC BACKGROUND",
   "SKILLS", "TECHNICAL SKILLS", "CORE COMPETENCIES",
   "PROJECTS", "PERSONAL PROJECTS", "KEY PROJECTS",
   "CERTIFICATIONS", "CERTIFICATES", "LICENSES",
   "AWARDS", "ACHIEVEMENTS", "HONORS",
   "SUMMARY", "PROFESSIONAL SUMMARY", "PROFILE",
   "PUBLICATIONS", "RESEARCH",
   "VOLUNTEER", "VOLUNTEER EXPERIENCE",
   "LANGUAGES", "LANGUAGE SKILLS"]

/-- Whether a line matches one of the section-header patterns: each pattern
is start-anchored with the case-insensitive flag, so a line matches iff a
keyword is a case-insensitive prefix of it.  ASCII upcasing agrees with the
regex flag because every keyword is ASCII, and the multiline flag is
irrelevant because lines come from a newline split and contain none. -/
def headerMatch (line : List Char) : Bool :=
  headerKeywords.any (fun kw =>
    (line.take kw.toList.length).map Char.toUpper == kw.toList)

/-- Loop state of `parseTextToChunks`: accumulated chunks, the current
section header (if any), its accumulated content lines, and the chunk
index counter. -/
structure SegState where
  chunks : List ParsedChunk
  cur : Option (List Char)
  content : List (List Char)
  idx : Nat
deriving Repr

/-- One iteration of the line loop in `parseTextToChunks`. -/
def segStep (st : SegState) (line : List Char) : SegState :=
  if headerMatch line then
    -- header line: flush the previous section if it has content, then
    -- start a new section (a header with no accumulated content is dropped)
    if st.cur.isSome && !st.content.isEmpty then
      { chunks := st.chunks ++ [createChunk (st.cur.getD []) st.content st.idx]
        cur := some line
        content := []
        idx := st.idx + 1 }
    else { st with cur := some line }
  else
    match st.cur with
    | some _ => { st with content := st.content ++ [line] }
    | none => st

/-- The normalized line list: split on newlines, trim each line, drop
empties (`split`, `map trim`, `filter Boolean`). -/
def heuristicLines (text : String) : List (List Char) :=
  ((splitOnNl text.toList).map trimList).filter (fun l => !l.isEmpty)

/-- The single fallback chunk emitted when no section header was found. -/
def fallbackChunk (text : String) : ParsedChunk :=
  { id := "section-0"
    type := ChunkType.section
    title := "Resume Content"
    content := text
    rawLatex := "\\section\x7bResume Content\x7d\n\n" ++ text
    parentId := none
    tags := some ["imported"]
    metadata := none }

/-- Embeds `parseTextToChunks` (src/unnamed/part_000 lines 55-128). -/
def parseTextToChunks (text : String) : List ParsedChunk :=
  let st := (heuristicLines text).foldl segStep
    { chunks := [], cur := none, content := [], idx := 0 }
  let chunks :=
    match st.cur with
    | some sec =>
      if !st.content.isEmpty then st.chunks ++ [createChunk sec st.content st.idx]
      else st.chunks
    | none => st.chunks
  if chunks.isEmpty then [fallbackChunk text] else chunks

/-! ## Structural parser (`src/lib/latex-parser.ts`)

Each JavaScript regex is rendered as a leftmost-match scanner: `findFirst`
tries a head matcher at every position left to right (exactly the regex
engine's start-position search), lazy bodies with a lookahead become
`splitAtStops` (shortest split at the first position where a stop literal
starts, or the whole remainder — the lookahead alternative of end of
input), and a global scan repeats from the previous match end via
`scanGo`.  Fuel for `scanGo` is the input length plus one, which is always
sufficient because every match of every pattern involved consumes at least
one character. -/

/-- Strip an exact literal prefix. -/
def dropLit (lit l : List Char) : Option (List Char) :=
  if lit.isPrefixOf l then some (l.drop lit.length) else none

/-- Leftmost match search: try the matcher at every suffix, left to right. -/
def findFirst (tryAt : List Char → Option α) : List Char → Option α
  | [] => none
  | c :: cs =>
    match tryAt (c :: cs) with
    | some r => some r
    | none => findFirst tryAt cs

/-- Shortest split such that the remainder starts with one of the stop
literals; if none ever does, everything is consumed (the end-of-input
lookahead alternative). -/
def splitAtStops (stops : List (List Char)) : List Char → List Char × List Char
  | [] => ([], [])
  | c :: cs =>
    if stops.any (fun s => s.isPrefixOf (c :: cs)) then ([], c :: cs)
    else
      let p := splitAtStops stops cs
      (c :: p.1, p.2)

/-- Split at the first occurrence of a literal, returning the part before it
and the part after it (none if the literal does not occur). -/
def splitAtLit (lit : List Char) : List Char → Option (List Char × List Char)
  | [] => none
  | c :: cs =>
    if lit.isPrefixOf (c :: cs) then some ([], (c :: cs).drop lit.length)
    else
      match splitAtLit lit cs with
      | some p => some (c :: p.1, p.2)
      | none => none

/-- Repeat a step (leftmost match returning the match and the rest after it)
until it fails, like a global-regex `exec` loop.  The fuel bounds the number
of iterations; callers pass length + 1, sufficient since each match consumes
at least one character. -/
def scanGo (step : List Char → Option (α × List Char)) : Nat → List Char → List α
  | 0, _ => []
  | fuel + 1, l =>
    match step l with
    | none => []
    | some (m, rest) => m :: scanGo step fuel rest

/-- Match a sectioning command at the current position: the literal command
name, an optional star, then a brace group of one or more non-brace
characters.  Returns (matched head text, title, rest after the group). -/
def matchSectionCmd (cmd : List Char) (l : List Char) :
    Option (List Char × List Char × List Char) :=
  match dropLit cmd l with
  | none => none
  | some r1 =>
    let sp : List Char × List Char :=
      match r1 with
      | '*' :: t => (['*'], t)
      | _ => ([], r1)
    match sp.2 with
    | '\x7b' :: r3 =>
      let title := r3.takeWhile (fun c => c ≠ '\x7d')
      match r3.drop title.length with
      | '\x7d' :: r4 =>
        if title.isEmpty then none
        else some (cmd ++ sp.1 ++ '\x7b' :: (title ++ ['\x7d']), title, r4)
      | _ => none
    | _ => none

/-- A brace group of zero or more non-brace characters; returns the group
content and the rest after the closing brace. -/
def braceGroupStar : List Char → Option (List Char × List Char)
  | '\x7b' :: r =>
    let g := r.takeWhile (fun c => c ≠ '\x7d')
    match r.drop g.length with
    | '\x7d' :: rest => some (g, rest)
    | _ => none
  | _ => none

/-- Four consecutive ASCII digits somewhere in the list (the year-like token
requirement of the date pattern). -/
def hasRun4 : List Char → Bool
  | a :: b :: c :: d :: r =>
    (a.isDigit && b.isDigit && c.isDigit && d.isDigit) || hasRun4 (b :: c :: d :: r)
  | _ => false

/-- Head matcher for the date pattern: a brace group (no closing brace
inside) containing four consecutive digits; the capture is the whole group
content. -/
def matchDateBrace (t : List Char) : Option (List Char) :=
  match braceGroupStar t with
  | some (g, _) => if hasRun4 g then some g else none
  | none => none

/-- Head matcher for the company pattern: `\textbf` followed by a non-empty
brace group. -/
def matchTextbfAt (t : List Char) : Option (List Char) :=
  match dropLit ("\\textbf".toList) t with
  | some r =>
    match braceGroupStar r with
    | some (g, _) => if g.isEmpty then none else some g
    | none => none
  | none => none

/-- Embeds `extractMetadata` (src/lib/latex-parser.ts lines 110-119): first
brace group containing a 4-digit run becomes `dates`, first `\textbf`
group becomes `company`; `position` and `location` are never set. -/
def extractMetadata (latex : List Char) : Metadata :=
  { dates := (findFirst matchDateBrace latex).map String.mk
    company := (findFirst matchTextbfAt latex).map String.mk
    position := none
    location := none }

/-- A raw regex match inside `parseItems`: the full matched text (`match[0]`)
and the first captured group (`match[1]`, possibly empty). -/
structure RawMatch where
  m0 : List Char
  g1 : List Char
deriving DecidableEq, Repr

/-- One leftmost match of the subsection pattern: `\subsection` with
optional star and non-empty brace title, then a lazy body stopped by a
following `\subsection` or `\section` (or end of input). -/
def stepSubsection (l : List Char) : Option (RawMatch × List Char) :=
  findFirst (fun t =>
    match matchSectionCmd ("\\subsection".toList) t with
    | none => none
    | some (head, title, r) =>
      let cs := splitAtStops ["\\subsection".toList, "\\section".toList] r
      some ({ m0 := head ++ cs.1, g1 := title }, cs.2)) l

/-- One leftmost match of the list-item pattern: `\item`, one or more
whitespace characters (maximal, since the rest of the pattern always
succeeds), then a lazy body stopped by a following `\item`,
`\end` of itemize, `\end` of enumerate, or end of input. -/
def stepListItem (l : List Char) : Option (RawMatch × List Char) :=
  findFirst (fun t =>
    match dropLit ("\\item".toList) t with
    | none => none
    | some r1 =>
      let ws := r1.takeWhile isJsSpace
      if ws.isEmpty then none
      else
        let cs := splitAtStops
          ["\\item".toList, "\\end\x7bitemize\x7d".toList, "\\end\x7benumerate\x7d".toList]
          (r1.drop ws.length)
        some ({ m0 := "\\item".toList ++ ws ++ cs.1, g1 := cs.1 }, cs.2)) l

/-- One leftmost match of the `\cventry` pattern: exactly six brace groups,
each of zero or more non-brace characters; group 1 is the first field. -/
def stepCventry (l : List Char) : Option (RawMatch × List Char) :=
  findFirst (fun t => do
    let r0 ← dropLit ("\\cventry".toList) t
    let (a1, r1) ← braceGroupStar r0
    let (a2, r2) ← braceGroupStar r1
    let (a3, r3) ← braceGroupStar r2
    let (a4, r4) ← braceGroupStar r3
    let (a5, r5) ← braceGroupStar r4
    let (a6, r6) ← braceGroupStar r5
    let wrap := fun (g : List Char) => '\x7b' :: (g ++ ['\x7d'])
    pure ({ m0 := "\\cventry".toList ++ wrap a1 ++ wrap a2 ++ wrap a3 ++
                  wrap a4 ++ wrap a5 ++ wrap a6
            g1 := a1 }, r6)) l

/-- All matches of the subsection pattern over a section's content. -/
def scanSubsections (content : String) : List RawMatch :=
  scanGo stepSubsection (content.toList.length + 1) content.toList

/-- All matches of the list-item pattern over a section's content. -/
def scanListItems (content : String) : List RawMatch :=
  scanGo stepListItem (content.toList.length + 1) content.toList

/-- All matches of the `\cventry` pattern over a section's content. -/
def scanCventries (content : String) : List RawMatch :=
  scanGo stepCventry (content.toList.length + 1) content.toList

/-- The three pattern families applied in sequence over the same content
(the `patterns.forEach` of `parseItems`): all subsection matches, then all
list-item matches, then all `\cventry` matches. -/
def allItemMatches (content : String) : List RawMatch :=
  scanSubsections content ++ scanListItems content ++ scanCventries content

/-- JavaScript truthiness chain `a || b` on strings: the empty string is
falsy. -/
def jsFalsyOr (a b : String) : String := if a = "" then b else a

/-- Build one item chunk from a match, as the loop body of `parseItems`
does at counter value `k`. -/
def itemChunkOf (parentId : String) (k : Nat) (m : RawMatch) : ParsedChunk :=
  let md := extractMetadata m.m0
  { id := parentId ++ "-item-" ++ toString k
    type := ChunkType.item
    -- title: metadata?.position || match[1] || "Item"
    title := jsFalsyOr (md.position.getD "") (jsFalsyOr (String.mk m.g1) "Item")
    content := String.mk m.m0
    rawLatex := String.mk m.m0
    parentId := some parentId
    tags := none
    metadata := some md }

/-- Chunks from a match list with the item counter threaded through. -/
def itemsFromMatches (parentId : String) (k : Nat) : List RawMatch → List ParsedChunk
  | [] => []
  | m :: ms => itemChunkOf parentId k m :: itemsFromMatches parentId (k + 1) ms

/-- Embeds `parseItems` (src/lib/latex-parser.ts lines 75-108). -/
def parseItems (content : String) (parentId : String) : List ParsedChunk :=
  itemsFromMatches parentId 0 (allItemMatches content)

/-- One leftmost match of the section pattern: `\section` with optional star
and non-empty brace title, then a lazy body stopped by a following
`\section` (or end of input).  Returns ((head, title, content), rest). -/
def stepSection (l : List Char) :
    Option ((List Char × List Char × List Char) × List Char) :=
  findFirst (fun t =>
    match matchSectionCmd ("\\section".toList) t with
    | none => none
    | some (head, title, r) =>
      let cs := splitAtStops ["\\section".toList] r
      some ((head, title, cs.1), cs.2)) l

/-- The `while (match = sectionRegex.exec(body))` loop of `parseSections`,
with the `globalIndex` counter `k` (incremented past the section and then
past its item count) threaded through.  Fuel is the remaining input length
plus one; every iteration consumes at least the non-empty section head. -/
def sectionsGo : Nat → List Char → Nat → List ParsedChunk
  | 0, _, _ => []
  | fuel + 1, l, k =>
    match stepSection l with
    | none => []
    | some ((head, title, content), rest) =>
      let sectionId := "section-" ++ toString k
      let contentTrim := trimList content
      let items := parseItems (String.mk contentTrim) sectionId
      { id := sectionId
        type := ChunkType.section
        title := String.mk title
        content := String.mk contentTrim
        rawLatex := String.mk (head ++ content)
        parentId := none
        tags := some [String.mk (title.map Char.toLower)]
        metadata := none } :: (items ++ sectionsGo fuel rest (k + 1 + items.length))

/-- Embeds `parseSections` (src/lib/latex-parser.ts lines 40-73).  The source's
`globalIndex` is a local variable initialized to zero on every invocation,
so the function is pure and the counter starts at 0 each call. -/
def parseSections (body : String) : List ParsedChunk :=
  sectionsGo (body.toList.length + 1) body.toList 0

/-- Regex `.`-safe lazy brace group: a brace group whose content is on one
line (`.` matches no line terminator), shortest to the first closing
brace. -/
def braceLazyNoNl : List Char → Option (List Char × List Char)
  | '\x7b' :: r =>
    let g := r.takeWhile (fun c => c ≠ '\x7d' && !isLineTerm c)
    match r.drop g.length with
    | '\x7d' :: rest => some (g, rest)
    | _ => none
  | _ => none

/-- Backtracking search for the closing bracket of a lazy `[...]` option
group followed by the mandatory brace group: try the earliest closing
bracket first; on failure the lazy dot-star grows past it; a line
terminator stops the growth. -/
def bracketSearch : List Char → Option (List Char × List Char)
  | [] => none
  | c :: r =>
    if isLineTerm c then none
    else if c = ']' then
      match braceLazyNoNl r with
      | some gr => some gr
      | none => bracketSearch r
    else bracketSearch r

/-- Match, at the current position, a command with an optional (greedy,
preferred) lazy bracketed option group and a mandatory lazy brace group:
the shape of the `\documentclass` and `\usepackage` patterns.  Returns the
brace-group capture and the rest after it. -/
def matchCmdBraceOptArg (cmd : List Char) (t : List Char) :
    Option (List Char × List Char) :=
  match dropLit cmd t with
  | none => none
  | some r =>
    match r with
    | '[' :: r2 =>
      (match bracketSearch r2 with
       | some gr => some gr
       -- zero-occurrence fallback of the optional group (cannot succeed
       -- here, since the next character is the bracket, not a brace)
       | none => braceLazyNoNl r)
    | _ => braceLazyNoNl r

/-- Head matcher for the document-class pattern; only the capture is used. -/
def matchDocclassAt (t : List Char) : Option (List Char) :=
  (matchCmdBraceOptArg ("\\documentclass".toList) t).map Prod.fst

/-- One leftmost match of the package pattern, for the global `matchAll`. -/
def stepUsepackage (l : List Char) : Option (List Char × List Char) :=
  findFirst (fun t => matchCmdBraceOptArg ("\\usepackage".toList) t) l

def beginDocLit : List Char := "\\begin\x7bdocument\x7d".toList
def endDocLit : List Char := "\\end\x7bdocument\x7d".toList

/-- Attach `order` (the list index) and `isActive = true` to parsed chunks,
as `parseLatexFile` does when building `activeChunks`. -/
def withOrders : Nat → List ParsedChunk → List ResumeChunk
  | _, [] => []
  | i, ch :: rest =>
    { id := ch.id, type := ch.type, title := ch.title, content := ch.content
      rawLatex := ch.rawLatex, order := i, isActive := true
      parentId := ch.parentId, tags := ch.tags, metadata := ch.metadata }
      :: withOrders (i + 1) rest

/-- Embeds `parseLatexFile` (src/lib/latex-parser.ts lines 3-38). -/
def parseLatexFile (content : String) : ResumeData :=
  let cl := content.toList
  -- preamble: lazy group before the first \begin-document (empty if absent)
  let preambleL :=
    match splitAtLit beginDocLit cl with
    | some p => trimList p.1
    | none => []
  -- body: between the first \begin-document and the first following
  -- \end-document (empty if either is absent)
  let bodyL :=
    match splitAtLit beginDocLit cl with
    | some p =>
      match splitAtLit endDocLit p.2 with
      | some q => trimList q.1
      | none => []
    | none => []
  let documentClass :=
    match findFirst matchDocclassAt preambleL with
    | some g => String.mk g
    | none => "article"
  let packages :=
    (scanGo stepUsepackage (preambleL.length + 1) preambleL).map String.mk
  let chunks := parseSections (String.mk bodyL)
  { preamble := String.mk preambleL
    activeChunks := withOrders 0 chunks
    standbyChunks := []
    documentClass := documentClass
    packages := packages }

/-! ## Document regeneration (`generateLatex`, src/unnamed/part_000 lines 212-240)
and the chunk operations of `src/components/ResumeEditor.tsx`. -/

/-- Stable insertion into a list sorted ascending by `order`.  The fold
below inserts elements from right to left, so an element must be placed
before later elements with an equal key to preserve the original relative
order of equals, as the JavaScript stable sort does. -/
def insertByOrder (c : ResumeChunk) : List ResumeChunk → List ResumeChunk
  | [] => [c]
  | d :: ds => if c.order ≤ d.order then c :: d :: ds else d :: insertByOrder c ds

/-- The JavaScript stable `sort` with comparator on `order`, ascending. -/
def sortByOrder (l : List ResumeChunk) : List ResumeChunk :=
  l.foldr insertByOrder []

/-- Embeds `generateLatex` (src/unnamed/part_000 lines 212-240): preamble, a
begin-document delimiter, then for each active section chunk in order its
raw text followed by the raw text of every active chunk whose parent it is,
a blank-line separator after each section, and the end-document
delimiter. -/
def generateLatex (data : ResumeData) : String :=
  let sortedChunks := sortByOrder (data.activeChunks.filter (fun c => c.isActive))
  let sectionChunks := sortedChunks.filter (fun c => c.type == ChunkType.section)
  let body := mapConcat (fun (sec : ResumeChunk) =>
      let childItems := sortedChunks.filter (fun c => c.parentId == some sec.id)
      sec.rawLatex.toList ++
        mapConcat (fun (it : ResumeChunk) => '\n' :: it.rawLatex.toList) childItems ++
        "\n\n".toList)
    sectionChunks
  String.mk (data.preamble.toList ++ "\n\n".toList ++ beginDocLit ++ "\n\n".toList ++
    body ++ endDocLit)

/-- Embeds `toggleChunkActive` (src/components/ResumeEditor.tsx lines 239-245):
flip `isActive` of the chunk with the given id, leave everything else
untouched.  This is the registry operation the spec calls SetActive. -/
def toggleChunkActive (id : String) (chunks : List ResumeChunk) : List ResumeChunk :=
  chunks.map (fun c => if c.id == id then { c with isActive := !c.isActive } else c)

/-- Embeds `deleteChunk`: remove the chunk with the given id. -/
def deleteChunk (id : String) (chunks : List ResumeChunk) : List ResumeChunk :=
  chunks.filter (fun c => !(c.id == id))

/-- dnd-kit `arrayMove`: remove the element at `i` and re-insert it at `j`.
The JavaScript version appends when the target index is past the last
position (`splice` clamps), which the insertion helper reproduces; the
source-index-not-found case cannot arise at the call site, where both
indices come from successful `findIndex` calls. -/
def spliceInsert (j : Nat) (x : α) : List α → List α
  | [] => [x]
  | h :: t =>
    match j with
    | 0 => x :: h :: t
    | j + 1 => h :: spliceInsert j x t

def arrayMove (l : List ResumeChunk) (i j : Nat) : List ResumeChunk :=
  match l.get? i with
  | none => l
  | some x => spliceInsert j x (l.eraseIdx i)

/-- Embeds `handleDragEnd` (src/components/ResumeEditor.tsx lines 208-237) as a
transformation of the chunk list: `overId? = none` models a drop outside any
target.  Reordering happens only when the dragged and target chunks share
the same `isActive`; the moved partition is re-sorted, the element is moved
by `arrayMove`, and each chunk appearing in the moved partition gets its
position there as its new `order`; all other chunks are returned as-is. -/
def handleDragEnd (chunks : List ResumeChunk) (activeId : String) :
    Option String → List ResumeChunk
  | none => chunks
  | some overId =>
    if activeId == overId then chunks
    else
      match chunks.find? (fun c => c.id == activeId),
            chunks.find? (fun c => c.id == overId) with
      | some activeChunk, some overChunk =>
        if activeChunk.isActive == overChunk.isActive then
          let items := sortByOrder
            (chunks.filter (fun c => c.isActive == activeChunk.isActive))
          let oldIndex := items.findIdx (fun c => c.id == activeId)
          let newIndex := items.findIdx (fun c => c.id == overId)
          let reordered := arrayMove items oldIndex newIndex
          chunks.map (fun chunk =>
            if reordered.any (fun r => r.id == chunk.id) then
              { chunk with order := reordered.findIdx (fun r => r.id == chunk.id) }
            else chunk)
        else chunks
      | _, _ => chunks

/-- A two-chunk document source (one section containing one item) used to
exercise the parse-generate-reparse pipeline. -/
def roundtripSrc : String :=
  "\\begin\x7bdocument\x7d\\section\x7bA\x7d\n\\item x\\end\x7bdocument\x7d"

/-- A small registry state: two active chunks and one standby chunk, with
distinct ids, used to exercise the chunk operations. -/
def sampleChunkA : ResumeChunk :=
  { id := "a", type := ChunkType.section, title := "A", content := ""
    rawLatex := "\\section\x7bA\x7d", order := 0, isActive := true
    parentId := none, tags := none, metadata := none }

def sampleChunkB : ResumeChunk :=
  { id := "b", type := ChunkType.section, title := "B", content := ""
    rawLatex := "\\section\x7bB\x7d", order := 1, isActive := true
    parentId := none, tags := none, metadata := none }

def sampleChunkC : ResumeChunk :=
  { id := "c", type := ChunkType.section, title := "C", content := ""
    rawLatex := "\\section\x7bC\x7d", order := 0, isActive := false
    parentId := none, tags := none, metadata := none }

def sampleChunks : List ResumeChunk := [sampleChunkA, sampleChunkB, sampleChunkC]

/-! ## Formalization of "no unescaped control character"

The escaping claim is formalized with a small left-to-right lexer over the
target markup's delimiter rules: a backslash escapes the character after it
(covering both control symbols like backslash-ampersand and the first letter
of control words like `\textbackslash`, whose remaining letters are ordinary
characters), and the scan fails if one of the control characters
ampersand, percent, dollar, hash, underscore, tilde, caret occurs bare or a
backslash dangles at the end of the text.  Brace characters are the markup's
own argument delimiters (the structural parser's patterns consume them as
group delimiters), so a bare brace is delimiter syntax, not an unescaped
control character; literal braces are only ever emitted in escaped form. -/

/-- The control characters that must never occur bare (outside an escape). -/
def isCtlBare (c : Char) : Bool :=
  c = '&' || c = '%' || c = '$' || c = '#' || c = '_' || c = '~' || c = '^'

/-- The ten characters whose presence in an input line triggers the escaping
claim. -/
def isEscTrigger (c : Char) : Bool :=
  c = '&' || c = '%' || c = '$' || c = '#' || c = '_' || c = '\x7b' ||
  c = '\x7d' || c = '~' || c = '^' || c = '\\'

/-- Lexer state machine: the flag records whether the previous character was
an escaping backslash.  Returns `true` iff the text contains no bare control
character and no dangling backslash. -/
def safeSM : Bool → List Char → Bool
  | false, [] => true
  | true, [] => false
  | true, _ :: r => safeSM false r
  | false, c :: r =>
    if c = '\\' then safeSM true r else !isCtlBare c && safeSM false r

/-- The per-character result of the four escape passes run in sequence
(used to characterize `escapeLatex` one character at a time). -/
def escCharFused (c : Char) : List Char :=
  mapConcat escPassCaret
    (mapConcat escPassTilde
      (mapConcat escPassClass (escPassBackslash c)))

/-! ## Theorems settling the claims -/

theorem mapConcat_append (f : α → List Char) (a b : List α) :
    mapConcat f (a ++ b) = mapConcat f a ++ mapConcat f b := by
  induction a with
  | nil => simp [mapConcat]
  | cons x r ih => simp [mapConcat, ih]

theorem escapeLatex_eq_fused (l : List Char) :
    escapeLatex l = mapConcat escCharFused l := by
  induction l with
  | nil => rfl
  | cons c r ih =>
    show mapConcat escPassCaret (mapConcat escPassTilde (mapConcat escPassClass
      (escPassBackslash c ++ mapConcat escPassBackslash r))) = _
    rw [mapConcat_append, mapConcat_append, mapConcat_append]
    simp only [mapConcat, escCharFused]
    rw [← ih]
    rfl

/-- Consuming a lexer-safe chunk leaves the machine in the ground state, so
safety of a concatenation reduces to safety of the tail. -/
theorem safeSM_append (a b : List Char) (s : Bool) (h : safeSM s a = true) :
    safeSM s (a ++ b) = safeSM false b := by
  induction a generalizing s with
  | nil =>
    cases s with
    | false => rfl
    | true => simp [safeSM] at h
  | cons c r ih =>
    cases s with
    | true =>
      simp only [safeSM] at h ⊢
      exact ih false h
    | false =>
      by_cases hc : c = '\\'
      · simp only [safeSM, hc, if_pos rfl, List.cons_append] at h ⊢
        simpa using ih true (by simpa [hc] using h)
      · simp only [List.cons_append, safeSM, if_neg hc] at h ⊢
        rcases Bool.and_eq_true_iff.mp h with ⟨h1, h2⟩
        rw [h1]
        simpa using ih false h2

/-- Every character's escaped form is lexer-safe: the special characters
become escape sequences or literal-rendering command words, and any other
character is not a control character. -/
theorem safeSM_escCharFused (c : Char) : safeSM false (escCharFused c) = true := by
  by_cases h0 : c = '\\'; · subst h0; decide
  by_cases h1 : c = '&'; · subst h1; decide
  by_cases h2 : c = '%'; · subst h2; decide
  by_cases h3 : c = '$'; · subst h3; decide
  by_cases h4 : c = '#'; · subst h4; decide
  by_cases h5 : c = '_'; · subst h5; decide
  by_cases h6 : c = '\x7b'; · subst h6; decide
  by_cases h7 : c = '\x7d'; · subst h7; decide
  by_cases h8 : c = '~'; · subst h8; decide
  by_cases h9 : c = '^'; · subst h9; decide
  simp [escCharFused, escPassBackslash, escPassClass, escPassTilde, escPassCaret,
    mapConcat, safeSM, isCtlBare, h0, h1, h2, h3, h4, h5, h6, h7, h8, h9]

/-- The full escape function produces lexer-safe text. -/
theorem escapeLatex_safe (l : List Char) : safeSM false (escapeLatex l) = true := by
  rw [escapeLatex_eq_fused]
  induction l with
  | nil => rfl
  | cons c r ih =>
    show safeSM false (escCharFused c ++ mapConcat escCharFused r) = true
    rw [safeSM_append _ _ _ (safeSM_escCharFused c)]
    exact ih

/-- Every converted line is lexer-safe: the emitted command scaffolding
(`\item`, `\subsection` with its brace delimiters, the line-break command)
consists of escape pairs, command words, delimiter braces and plain
characters, and the embedded content is escaped. -/
theorem lineToLatex_safe (line : List Char) : safeSM false (lineToLatex line) = true := by
  dsimp only [lineToLatex]
  split
  · rw [List.append_assoc,
      safeSM_append _ _ _ (by decide : safeSM false ("  \\item ".toList) = true),
      safeSM_append _ _ _ (escapeLatex_safe _)]
    decide
  · split
    · rw [List.append_assoc,
        safeSM_append _ _ _ (by decide : safeSM false ("\\subsection\x7b".toList) = true),
        safeSM_append _ _ _ (escapeLatex_safe _)]
      decide
    · rw [safeSM_append _ _ _ (escapeLatex_safe _)]
      decide

/-- The whole body conversion is lexer-safe for every input text. -/
theorem convertToLatex_safe (text : List Char) :
    safeSM false (convertToLatex text) = true := by
  unfold convertToLatex
  have h : ∀ ls : List (List Char),
      safeSM false (mapConcat lineToLatex ls) = true := by
    intro ls
    induction ls with
    | nil => rfl
    | cons l ls ih =>
      show safeSM false (lineToLatex l ++ mapConcat lineToLatex ls) = true
      rw [safeSM_append _ _ _ (lineToLatex_safe l)]
      exact ih
  exact h _

/-- C3: for every input text containing one of the ten special characters
(ampersand, percent, dollar, hash, underscore, braces, tilde, caret,
backslash), the heuristic segmenter's line conversion produces markup with
no unescaped control character: scanning the output with the delimiter-rule
lexer `safeSM` (backslash escapes the next character; braces act as the
markup's argument delimiters) finds no bare control character and no
dangling backslash.  The property in fact holds for every input. -/
theorem heuristic_escaping_no_unescaped_controls (text : List Char)
    (_h : text.any isEscTrigger = true) :
    safeSM false (convertToLatex text) = true :=
  convertToLatex_safe text

/-- Witness for C3 at a concrete line containing all ten trigger
characters. -/
theorem heuristic_escaping_no_unescaped_controls_witness :
    ("a & b\nc\\d ~e ^f 100% $2 #g _h \x7bi\x7d".toList.any isEscTrigger = true) ∧
    safeSM false
      (convertToLatex "a & b\nc\\d ~e ^f 100% $2 #g _h \x7bi\x7d".toList) = true :=
  ⟨by decide,
   heuristic_escaping_no_unescaped_controls
     ("a & b\nc\\d ~e ^f 100% $2 #g _h \x7bi\x7d".toList) (by decide)⟩

theorem itemsFromMatches_length (p : String) (k : Nat) (ms : List RawMatch) :
    (itemsFromMatches p k ms).length = ms.length := by
  induction ms generalizing k with
  | nil => rfl
  | cons m ms ih => simp [itemsFromMatches, ih]

theorem itemsFromMatches_append (p : String) (k : Nat) (a b : List RawMatch) :
    itemsFromMatches p k (a ++ b) =
      itemsFromMatches p k a ++ itemsFromMatches p (k + a.length) b := by
  induction a generalizing k with
  | nil => simp [itemsFromMatches]
  | cons m ms ih =>
    simp only [List.cons_append, itemsFromMatches, List.length_cons, List.append_eq]
    rw [ih]
    have hk : k + 1 + ms.length = k + (ms.length + 1) := by omega
    rw [hk]

theorem itemsFromMatches_map_id (p : String) (k : Nat) (ms : List RawMatch) :
    (itemsFromMatches p k ms).map (fun ch => ch.id) =
      (List.range ms.length).map (fun i => p ++ "-item-" ++ toString (k + i)) := by
  induction ms generalizing k with
  | nil => rfl
  | cons m ms ih =>
    simp only [itemsFromMatches, List.map_cons, List.length_cons,
      List.range_succ_eq_map, List.map_map]
    rw [ih]
    congr 1
    apply List.map_congr_left
    intro i hi
    have hk : k + 1 + i = k + (i + 1) := by omega
    simp only [Function.comp_apply, Nat.succ_eq_add_one, hk]

/-- C4: the item chunks of a section are produced family by family — all
subsection-pattern matches, then all list-item-pattern matches, then all
six-field `\cventry` matches, with the counter carried across the families —
and their ids are the parent id followed by "-item-" and the list position,
counting from 0. -/
theorem parseItems_family_order_and_ids (content : String) (parentId : String) :
    parseItems content parentId =
      itemsFromMatches parentId 0 (scanSubsections content) ++
      itemsFromMatches parentId (scanSubsections content).length
        (scanListItems content) ++
      itemsFromMatches parentId
        ((scanSubsections content).length + (scanListItems content).length)
        (scanCventries content) ∧
    (parseItems content parentId).map (fun ch => ch.id) =
      (List.range (parseItems content parentId).length).map
        (fun k => parentId ++ "-item-" ++ toString k) := by
  constructor
  · show itemsFromMatches parentId 0 (allItemMatches content) = _
    unfold allItemMatches
    rw [itemsFromMatches_append, itemsFromMatches_append]
    simp
  · show (itemsFromMatches parentId 0 (allItemMatches content)).map _ = _
    rw [itemsFromMatches_map_id]
    simp [parseItems, itemsFromMatches_length]

/-- C10: every item chunk carries a metadata record whose `position` and
`location` fields are `none` (the extractor only ever fills `dates` and
`company`), and consequently its title is never metadata-derived: it is the
match's first captured group, or the literal "Item" when that group is
empty. -/
theorem item_title_never_from_metadata (content : String) (parentId : String) :
    List.Forall₂ (fun (ch : ParsedChunk) (m : RawMatch) =>
        ch.metadata.map (fun md => md.position) = some none ∧
        ch.metadata.map (fun md => md.location) = some none ∧
        ch.title = (if m.g1.isEmpty then "Item" else String.mk m.g1))
      (parseItems content parentId) (allItemMatches content) := by
  show List.Forall₂ _ (itemsFromMatches parentId 0 (allItemMatches content)) _
  generalize allItemMatches content = ms
  suffices h : ∀ (k : Nat),
      List.Forall₂ (fun (ch : ParsedChunk) (m : RawMatch) =>
        ch.metadata.map (fun md => md.position) = some none ∧
        ch.metadata.map (fun md => md.location) = some none ∧
        ch.title = (if m.g1.isEmpty then "Item" else String.mk m.g1))
      (itemsFromMatches parentId k ms) ms from h 0
  induction ms with
  | nil => intro k; exact List.Forall₂.nil
  | cons m ms ih =>
    intro k
    refine List.Forall₂.cons ⟨rfl, rfl, ?_⟩ (ih (k + 1))
    show jsFalsyOr ((extractMetadata m.m0).position.getD "")
        (jsFalsyOr (String.mk m.g1) "Item") = _
    by_cases hg : m.g1 = []
    · simp only [hg]
      rfl
    · have hne : String.mk m.g1 ≠ "" := fun hcontra => hg (congrArg String.data hcontra)
      have hg2 : m.g1.isEmpty = false := by simpa [List.isEmpty_iff] using hg
      simp [extractMetadata, jsFalsyOr, Option.getD, hne, hg2]

theorem itemsFromMatches_type (p : String) (k : Nat) (ms : List RawMatch) :
    ∀ ch ∈ itemsFromMatches p k ms, ch.type = ChunkType.item := by
  induction ms generalizing k with
  | nil => intro ch h; cases h
  | cons m ms ih =>
    intro ch h
    rcases List.mem_cons.mp h with h1 | h2
    · rw [h1]; rfl
    · exact ih (k + 1) ch h2

/-- The section ids emitted by the scan loop started at counter value `k`
are an increasing index sequence beginning exactly at `k`. -/
theorem sectionsGo_ids (fuel : Nat) (l : List Char) (k : Nat) :
    ∃ ns : List Nat, List.Chain' (· < ·) ns ∧
      ((sectionsGo fuel l k).filter (fun ch => ch.type == ChunkType.section)).map
        (fun ch => ch.id) = ns.map (fun n => "section-" ++ toString n) ∧
      (ns.head? = some k ∨ ns = []) := by
  induction fuel generalizing l k with
  | zero => exact ⟨[], List.chain'_nil, rfl, Or.inr rfl⟩
  | succ fuel ih =>
    cases hs : stepSection l with
    | none =>
      refine ⟨[], List.chain'_nil, ?_, Or.inr rfl⟩
      simp [sectionsGo, hs]
    | some res =>
      obtain ⟨⟨head, title, content⟩, rest⟩ := res
      obtain ⟨ns2, hchain, hids, hhead⟩ :=
        ih rest (k + 1 +
          (parseItems (String.mk (trimList content)) ("section-" ++ toString k)).length)
      refine ⟨k :: ns2, ?_, ?_, Or.inl rfl⟩
      · cases ns2 with
        | nil => exact List.chain'_singleton k
        | cons n2 rest2 =>
          refine List.chain'_cons.mpr ⟨?_, hchain⟩
          rcases hhead with h | h
          · have hn : n2 = k + 1 +
                (parseItems (String.mk (trimList content))
                  ("section-" ++ toString k)).length := by
              simpa using h
            omega
          · cases h
      · have hitems : ∀ ch ∈ parseItems (String.mk (trimList content))
            ("section-" ++ toString k), ch.type = ChunkType.item :=
          fun ch h => itemsFromMatches_type _ _ _ ch h
        have hfil : (parseItems (String.mk (trimList content))
            ("section-" ++ toString k)).filter
              (fun ch => ch.type == ChunkType.section) = [] := by
          rw [List.filter_eq_nil_iff]
          intro ch hch
          simp [hitems ch hch]
        simp only [sectionsGo, hs]
        rw [List.filter_cons_of_pos (by rfl)]
        simp only [List.filter_append, hfil, List.nil_append, List.map_cons]
        rw [hids]


/-- C7: the structural parser applied to the empty string yields document
class "article", an empty package list and an empty chunk collection (both
partitions); as a Lean function the embedding is total, so no input can
raise. -/
theorem parse_empty_defaults :
    (parseLatexFile "").documentClass = "article" ∧
    (parseLatexFile "").packages = [] ∧
    (parseLatexFile "").activeChunks = [] ∧
    (parseLatexFile "").standbyChunks = [] := by decide

/-- C2, counterexample: the exact input of the claim contains no
begin-document delimiter, so the structural parser's body extraction yields
the empty body and the parse produces zero chunks, not two. -/
theorem example_input_produces_no_chunks :
    (parseLatexFile "\\section\x7bExperience\x7d\n\\item Led a team").activeChunks
      = [] := by decide

/-- C2, amended: once the same input is wrapped in the document delimiters,
the parse produces exactly the two chunks the claim describes: a section
chunk titled "Experience" with id "section-0", and an item chunk with id
"section-0-item-0", parent "section-0" and content containing
"Led a team". -/
theorem example_input_wrapped_two_chunks :
    parseLatexFile
      "\\begin\x7bdocument\x7d\\section\x7bExperience\x7d\n\\item Led a team\\end\x7bdocument\x7d" =
    { preamble := ""
      activeChunks :=
        [{ id := "section-0", type := ChunkType.section, title := "Experience"
           content := "\\item Led a team"
           rawLatex := "\\section\x7bExperience\x7d\n\\item Led a team"
           order := 0, isActive := true, parentId := none
           tags := some ["experience"], metadata := none },
         { id := "section-0-item-0", type := ChunkType.item, title := "Led a team"
           content := "\\item Led a team", rawLatex := "\\item Led a team"
           order := 1, isActive := true, parentId := some "section-0"
           tags := none
           metadata := some { company := none, position := none
                              dates := none, location := none } }]
      standbyChunks := [], documentClass := "article", packages := [] } := by
  decide

/-- C1: the round trip fails on the code.  For the document parsed from
`roundtripSrc`, the generator emits the section's raw text (which already
contains the item's span) and then appends the item's raw text again plus a
blank-line separator, so re-parsing yields a section whose `rawLatex` has
the item text duplicated, and two items instead of one; no `rawLatex`
multiset is preserved. -/
theorem roundtrip_rawLatex_not_preserved :
    ((parseLatexFile roundtripSrc).activeChunks.map (fun c => c.rawLatex) =
      ["\\section\x7bA\x7d\n\\item x", "\\item x"]) ∧
    ((parseLatexFile (generateLatex (parseLatexFile roundtripSrc))).activeChunks.map
        (fun c => c.rawLatex) =
      ["\\section\x7bA\x7d\n\\item x\n\\item x", "\\item x\n", "\\item x"]) := by
  decide

/-- C5, counterexample: the section counter is a variable local to
`parseSections`, initialized to zero on every invocation, so the function is
pure and two successive invocations both start numbering at "section-0"; the
indices of a second call do not continue above those of the first. -/
theorem second_call_counter_restarts :
    (parseSections "\\section\x7bA\x7dx").map (fun c => c.id) = ["section-0"] ∧
    (parseSections "\\section\x7bB\x7dy").map (fun c => c.id) = ["section-0"] := by
  decide

/-- C5, amended: within a single invocation the section ids are
`section-<n>` for a strictly increasing sequence of counter values starting
at 0 (the counter also advances past each section's item count), but the
counter is local to the invocation, not shared across calls. -/
theorem section_ids_increase_within_call (body : String) :
    ∃ ns : List Nat, List.Chain' (· < ·) ns ∧
      ((parseSections body).filter (fun ch => ch.type == ChunkType.section)).map
        (fun ch => ch.id) = ns.map (fun n => "section-" ++ toString n) ∧
      (ns.head? = some 0 ∨ ns = []) :=
  sectionsGo_ids (body.toList.length + 1) body.toList 0

/-- The line loop is the identity when no line is a section header: nothing
is ever flushed and no current section is ever opened. -/
theorem foldl_segStep_no_header (ls : List (List Char))
    (h : ∀ l ∈ ls, headerMatch l = false) :
    ls.foldl segStep { chunks := [], cur := none, content := [], idx := 0 } =
      { chunks := [], cur := none, content := [], idx := 0 } := by
  induction ls with
  | nil => rfl
  | cons l ls ih =>
    rw [List.foldl_cons]
    have hl : headerMatch l = false := h l (List.mem_cons_self l ls)
    have hstep : segStep { chunks := [], cur := none, content := [], idx := 0 } l =
        { chunks := [], cur := none, content := [], idx := 0 } := by
      simp [segStep, hl]
    rw [hstep]
    exact ih (fun x hx => h x (List.mem_cons_of_mem l hx))

/-- C6: if no normalized line of the input matches a section-header keyword
pattern, the heuristic segmenter emits exactly one fallback chunk titled
"Resume Content", tagged with the single tag "imported", whose content is
the whole input verbatim. -/
theorem headerless_input_yields_fallback (text : String)
    (h : ∀ l ∈ heuristicLines text, headerMatch l = false) :
    parseTextToChunks text = [fallbackChunk text] := by
  unfold parseTextToChunks
  rw [foldl_segStep_no_header (heuristicLines text) h]
  rfl

/-- Witness for C6 at a concrete keyword-free text. -/
theorem headerless_input_yields_fallback_witness :
    (∀ l ∈ heuristicLines "just some plain words\nand another line",
      headerMatch l = false) ∧
    parseTextToChunks "just some plain words\nand another line" =
      [fallbackChunk "just some plain words\nand another line"] :=
  ⟨by decide,
   headerless_input_yields_fallback "just some plain words\nand another line"
     (by decide)⟩

/-- Applying the toggle update twice to one chunk restores it exactly. -/
theorem toggleFun_twice (id : String) (c : ResumeChunk) :
    (fun c : ResumeChunk =>
        if c.id == id then { c with isActive := !c.isActive } else c)
      ((fun c : ResumeChunk =>
        if c.id == id then { c with isActive := !c.isActive } else c) c) = c := by
  cases c with
  | mk cid cty ct cc crl cor cia cpid ctg cmd =>
    by_cases hc : cid = id
    · simp [hc, Bool.not_not]
    · simp [hc]

/-- The toggle update never changes a chunk's order. -/
theorem toggleFun_order (id : String) (c : ResumeChunk) :
    ((fun c : ResumeChunk =>
        if c.id == id then { c with isActive := !c.isActive } else c) c).order =
      c.order := by
  by_cases hc : c.id = id <;> simp [hc]

/-- Mapping twice by a pointwise involution is the identity. -/
theorem double_map_id (f : α → α) (hff : ∀ x, f (f x) = x) (l : List α) :
    (l.map f).map f = l := by
  induction l with
  | nil => rfl
  | cons c cs ih => simp [hff c, ih]

/-- A map that preserves a projection pointwise preserves the projected
list. -/
theorem map_of_map_proj (g : α → β) (f : α → α) (h : ∀ x, g (f x) = g x)
    (l : List α) : (l.map f).map g = l.map g := by
  induction l with
  | nil => rfl
  | cons c cs ih => simp [h c, ih]

/-- C8: toggling a chunk's activity twice restores the original chunk list,
and a toggle never changes any chunk's `order` (the id need only be present;
the proof does not even need that). -/
theorem toggle_twice_restores (chunks : List ResumeChunk) (id : String)
    (_h : id ∈ chunks.map (fun c => c.id)) :
    toggleChunkActive id (toggleChunkActive id chunks) = chunks ∧
    (toggleChunkActive id chunks).map (fun c => c.order) =
      chunks.map (fun c => c.order) := by
  refine ⟨double_map_id (fun c : ResumeChunk =>
      if c.id == id then { c with isActive := !c.isActive } else c)
    (toggleFun_twice id) chunks, ?_⟩
  exact map_of_map_proj (fun c : ResumeChunk => c.order)
    (fun c : ResumeChunk =>
      if c.id == id then { c with isActive := !c.isActive } else c)
    (toggleFun_order id) chunks

/-- Witness for C8 on the sample registry. -/
theorem toggle_twice_restores_witness :
    ("a" ∈ sampleChunks.map (fun c => c.id)) ∧
    (toggleChunkActive "a" (toggleChunkActive "a" sampleChunks) = sampleChunks ∧
     (toggleChunkActive "a" sampleChunks).map (fun c => c.order) =
       sampleChunks.map (fun c => c.order)) :=
  ⟨by decide, toggle_twice_restores sampleChunks "a" (by decide)⟩

theorem mem_of_mem_insertByOrder (x c : ResumeChunk) (l : List ResumeChunk)
    (h : x ∈ insertByOrder c l) : x = c ∨ x ∈ l := by
  induction l with
  | nil => simpa [insertByOrder] using h
  | cons d ds ih =>
    unfold insertByOrder at h
    by_cases hc : c.order ≤ d.order
    · rw [if_pos hc] at h
      rcases List.mem_cons.mp h with h1 | h2
      · exact Or.inl h1
      · exact Or.inr h2
    · rw [if_neg hc] at h
      rcases List.mem_cons.mp h with h1 | h2
      · exact Or.inr (h1 ▸ List.mem_cons_self d ds)
      · rcases ih h2 with h3 | h4
        · exact Or.inl h3
        · exact Or.inr (List.mem_cons_of_mem d h4)

theorem mem_of_mem_sortByOrder (x : ResumeChunk) (l : List ResumeChunk)
    (h : x ∈ sortByOrder l) : x ∈ l := by
  induction l with
  | nil => simp [sortByOrder] at h
  | cons c cs ih =>
    rcases mem_of_mem_insertByOrder x c (sortByOrder cs) h with h1 | h2
    · exact h1 ▸ List.mem_cons_self c cs
    · exact List.mem_cons_of_mem c (ih h2)

theorem mem_of_mem_spliceInsert (x y : α) (j : Nat) (l : List α)
    (h : x ∈ spliceInsert j y l) : x = y ∨ x ∈ l := by
  induction l generalizing j with
  | nil => simpa [spliceInsert] using h
  | cons d ds ih =>
    cases j with
    | zero =>
      rcases List.mem_cons.mp h with h1 | h2
      · exact Or.inl h1
      · exact Or.inr h2
    | succ j =>
      rcases List.mem_cons.mp h with h1 | h2
      · exact Or.inr (h1 ▸ List.mem_cons_self d ds)
      · rcases ih j h2 with h3 | h4
        · exact Or.inl h3
        · exact Or.inr (List.mem_cons_of_mem d h4)

theorem mem_of_mem_eraseIdx (x : α) (l : List α) (i : Nat)
    (h : x ∈ l.eraseIdx i) : x ∈ l := by
  induction l generalizing i with
  | nil => simp [List.eraseIdx] at h
  | cons d ds ih =>
    cases i with
    | zero => exact List.mem_cons_of_mem d h
    | succ i =>
      rcases List.mem_cons.mp h with h1 | h2
      · exact h1 ▸ List.mem_cons_self d ds
      · exact List.mem_cons_of_mem d (ih i h2)

theorem mem_of_mem_arrayMove (x : ResumeChunk) (l : List ResumeChunk) (i j : Nat)
    (h : x ∈ arrayMove l i j) : x ∈ l := by
  unfold arrayMove at h
  cases hg : l.get? i with
  | none => rw [hg] at h; exact h
  | some v =>
    rw [hg] at h
    rcases mem_of_mem_spliceInsert x v j (l.eraseIdx i) h with h1 | h2
    · exact h1 ▸ List.get?_mem hg
    · exact mem_of_mem_eraseIdx x l i h2

/-- Mapping by a function that fixes every element satisfying `p` and never
changes `p`-membership commutes out of a filter by `p`. -/
theorem filter_map_of_invariant (f : ResumeChunk → ResumeChunk)
    (p : ResumeChunk → Bool) (l : List ResumeChunk)
    (h1 : ∀ c ∈ l, p c = true → f c = c)
    (h2 : ∀ c ∈ l, p (f c) = p c) :
    (l.map f).filter p = l.filter p := by
  induction l with
  | nil => rfl
  | cons c cs ih =>
    rw [List.map_cons, List.filter_cons, List.filter_cons,
      h2 c (List.mem_cons_self c cs)]
    have ihc := ih (fun x hx => h1 x (List.mem_cons_of_mem c hx))
      (fun x hx => h2 x (List.mem_cons_of_mem c hx))
    by_cases hp : p c = true
    · rw [if_pos hp, if_pos hp, h1 c (List.mem_cons_self c cs) hp, ihc]
    · rw [if_neg hp, if_neg hp, ihc]

/-- C9: under the id-uniqueness invariant, a drag-reorder leaves every chunk
of the other activity partition completely unchanged: filtering the result
to the partition opposite the dragged chunk gives exactly the original
chunks, with all fields (including `order` and `isActive`) intact. -/
theorem reorder_leaves_other_partition_unchanged (chunks : List ResumeChunk)
    (activeId overId : String) (a : ResumeChunk)
    (hnd : (chunks.map (fun c => c.id)).Nodup)
    (ha : chunks.find? (fun c => c.id == activeId) = some a) :
    (handleDragEnd chunks activeId (some overId)).filter
        (fun c => c.isActive != a.isActive) =
      chunks.filter (fun c => c.isActive != a.isActive) := by
  simp only [handleDragEnd]
  by_cases heq : (activeId == overId) = true
  · rw [if_pos heq]
  · rw [if_neg heq, ha]
    cases hb : chunks.find? (fun c => c.id == overId) with
    | none => rfl
    | some b =>
      dsimp only
      by_cases hab : (a.isActive == b.isActive) = true
      · rw [if_pos hab]
        refine filter_map_of_invariant _ _ _ ?_ ?_
        · -- other-partition chunks are fixed: they cannot occur in the
          -- reordered partition, whose members all share the dragged
          -- chunk's isActive and (by id uniqueness) are distinct from them
          intro c hc hpc
          have hne : c.isActive ≠ a.isActive := by
            simpa [bne_iff_ne] using hpc
          split
          · next hany =>
            exfalso
            rcases List.any_eq_true.mp hany with ⟨r, hr, hrid⟩
            have hrmem : r ∈ sortByOrder
                (chunks.filter (fun c => c.isActive == a.isActive)) :=
              mem_of_mem_arrayMove r _ _ _ hr
            have hrfil := mem_of_mem_sortByOrder r _ hrmem
            have hrchunks : r ∈ chunks := List.mem_of_mem_filter hrfil
            have hract : (r.isActive == a.isActive) = true :=
              (List.mem_filter.mp hrfil).2
            have hid : r.id = c.id := by simpa using hrid
            have hrc : r = c :=
              List.inj_on_of_nodup_map hnd hrchunks hc hid
            rw [hrc] at hract
            exact hne (by simpa using hract)
          · rfl
        · intro c hc
          split
          · rfl
          · rfl
      · rw [if_neg hab]

/-- Witness for C9 on the sample registry: dragging "a" onto "b" (both
active) leaves the standby partition untouched. -/
theorem reorder_leaves_other_partition_unchanged_witness :
    (handleDragEnd sampleChunks "a" (some "b")).filter
        (fun c => c.isActive != sampleChunkA.isActive) =
      sampleChunks.filter (fun c => c.isActive != sampleChunkA.isActive) :=
  reorder_leaves_other_partition_unchanged sampleChunks "a" "b" sampleChunkA
    (by decide) (by decide)

end Wesee
